import Mathlib

/-!
Formal model of the numerical core of skew_lattice.c (Gwyddion module by
J. Schwartz): shear-matrix construction and canvas sizing (skew_process),
the 2x3 affine-matrix algebra (matrix_det, invert_matrix, mult_3matrix),
inter-peak angle computation (get_angles), spectral peak search
(peak_find) and the affine resampler (affine).

Modelling conventions:
* C doubles are idealised as exact numbers: as real numbers where the
  code uses the transcendental functions tan/acos/sqrt, and as rationals
  in the purely arithmetical resampler and peak search (every finite
  double is a rational, and rational definitions stay executable).
* The PI macro of the source (a decimal approximation of pi) is
  idealised as the exact constant Real.pi, consistently with idealising
  acos/tan as the exact functions.
* The C integer operators are modelled faithfully: the binary % on int
  is Int.tmod (truncated remainder); operands are proved nonnegative
  where the code relies on that.
* GWY_ROUND(x) is the library rounding from the Gwyddion headers,
  floor(x + 0.5).
* gwy_data_field samples are modelled as a total function from indices
  to values; gwy_data_field_get_val(f, col, row) is f col row.
-/

open Real

/-- Flat 2x3 affine matrix m[0..5] as used throughout the source:
a point (x, y, 1) maps to (m0*x + m2*y + m4, m1*x + m3*y + m5, 1)
per the conventions of mult_3matrix. -/
structure Mat23 (α : Type) where
  m0 : α
  m1 : α
  m2 : α
  m3 : α
  m4 : α
  m5 : α

/-- Determinant of the 2x2 linear part, as in matrix_det of the source:
m[0]*m[3] - m[1]*m[2]. -/
def matrix_det {α : Type} [Field α] (m : Mat23 α) : α :=
  m.m0 * m.m3 - m.m1 * m.m2

/-- Closed-form affine inverse, following invert_matrix of the source
field by field. -/
def invert_matrix {α : Type} [Field α] (src : Mat23 α) : Mat23 α :=
  let D := matrix_det src
  ⟨src.m3 / D, -src.m1 / D, -src.m2 / D, src.m0 / D,
   (src.m2 * src.m5 - src.m3 * src.m4) / D,
   (src.m1 * src.m4 - src.m0 * src.m5) / D⟩

/-- Application of a 2x3 matrix to a homogeneous point, following
mult_3matrix of the source (mat2 is the column vector (x, y, w)). -/
def mult_3matrix {α : Type} [Field α] (mat1 : Mat23 α) (p : α × α × α) : α × α × α :=
  (mat1.m0 * p.1 + mat1.m2 * p.2.1 + mat1.m4 * p.2.2,
   mat1.m1 * p.1 + mat1.m3 * p.2.1 + mat1.m5 * p.2.2,
   p.2.2)

/-- Degree-to-radian conversion, deg2rad of the source (PI idealised as
the exact constant). -/
noncomputable def deg2rad (deg : ℝ) : ℝ :=
  deg * Real.pi / 180

/-- Forward shear matrix built by skew_process from the two skew angles
in degrees: Trans[0]=1, Trans[1]=tan(vAngle), Trans[2]=tan(hAngle),
Trans[3]=1, with hAngle = deg2rad(Xskew) and vAngle = deg2rad(Yskew),
and translation components (tx, ty). -/
noncomputable def skewTrans (Xskew Yskew tx ty : ℝ) : Mat23 ℝ :=
  ⟨1, Real.tan (deg2rad Yskew), Real.tan (deg2rad Xskew), 1, tx, ty⟩

/-- Library rounding GWY_ROUND(x) = (gint)floor(x + 0.5) from the
Gwyddion headers (not part of src, semantics taken from the library). -/
noncomputable def gwyRound (x : ℝ) : ℤ :=
  ⌊x + 0.5⌋

/-- New canvas resolution computed by skew_process: the four corners
(0,0), (oxres,0), (oxres,oyres), (0,oyres) are pushed through the
forward shear with zero translation, the axis-aligned bounding box is
taken by the sequential min/max updates of the source loop, and each
dimension is GWY_ROUND of the bounding-box extent. -/
noncomputable def skewCanvas (Xskew Yskew oxres oyres : ℝ) : ℤ × ℤ :=
  let T := skewTrans Xskew Yskew 0 0
  let tc0 := mult_3matrix T (0, 0, 1)
  let tc1 := mult_3matrix T (oxres, 0, 1)
  let tc2 := mult_3matrix T (oxres, oyres, 1)
  let tc3 := mult_3matrix T (0, oyres, 1)
  let lowX := min (min (min tc0.1 tc1.1) tc2.1) tc3.1
  let highX := max (max (max tc0.1 tc1.1) tc2.1) tc3.1
  let lowY := min (min (min tc0.2.1 tc1.2.1) tc2.2.1) tc3.2.1
  let highY := max (max (max tc0.2.1 tc1.2.1) tc2.2.1) tc3.2.1
  (gwyRound (highX - lowX), gwyRound (highY - lowY))

/-- Angle computation of get_angles: the law-of-cosines angles at p2
(between p1-p2 and p3-p2) and at p3 (between p4-p3 and p2-p3), in
degrees.  Note the source computes the length b = |p3-p2| once and
reuses it, unrecomputed, in the second angle; the model reproduces
this. -/
noncomputable def get_angles (p1 p2 p3 p4 : ℝ × ℝ) : ℝ × ℝ :=
  let axv := p1.1 - p2.1
  let ayv := p1.2 - p2.2
  let bxv := p3.1 - p2.1
  let byv := p3.2 - p2.2
  let a := Real.sqrt (axv * axv + ayv * ayv)
  let b := Real.sqrt (bxv * bxv + byv * byv)
  let ab := axv * bxv + ayv * byv
  let angle1 := Real.arccos (ab / (a * b)) * 180 / Real.pi
  let axw := p4.1 - p3.1
  let ayw := p4.2 - p3.2
  let bxw := p2.1 - p3.1
  let byw := p2.2 - p3.2
  let a2 := Real.sqrt (axw * axw + ayw * ayw)
  let ab2 := axw * bxw + ayw * byw
  let angle2 := Real.arccos (ab2 / (a2 * b)) * 180 / Real.pi
  (angle1, angle2)

/-! Peak search (peak_find).  The image is a W x H grid of samples
f col row; the approximate point has already been converted to pixel
indices (col, row), and r is the search radius in pixels.  The source
clamps low_i = col - r at 0 and high_i = col + r at Xres (strictly
analogous in j/row), then scans i from low_i to high_i - 1 (outer loop,
columns) and j from low_j to high_j - 1 (inner loop, rows), replacing
the running candidate only on strictly greater sample value; the
candidate starts at the approximate pixel itself.  Natural-number
truncated subtraction col - r is exactly the clamp max(0, col-r). -/

/-- Scan list of peak_find: pairs (i, j) with i in
[col-r, min (col+r) W) and j in [row-r, min (row+r) H), produced in the
loop order of the source (i outer, j inner: column-major). -/
def peakWindow (W H col row r : ℕ) : List (ℕ × ℕ) :=
  (List.range' (col - r) (min (col + r) W - (col - r))).flatMap
    (fun i => (List.range' (row - r) (min (row + r) H - (row - r))).map (fun j => (i, j)))

/-- Body of the scan loop of peak_find: replace the candidate
(temp_i, temp_j, temp_z) when the scanned sample is strictly greater. -/
def peakStep (f : ℕ → ℕ → ℚ) (b : ℕ × ℕ × ℚ) (p : ℕ × ℕ) : ℕ × ℕ × ℚ :=
  if f p.1 p.2 > b.2.2 then (p.1, p.2, f p.1 p.2) else b

/-- peak_find of the source: fold the scan loop over the window in
source order, starting from the approximate pixel and its value. -/
def peak_find (f : ℕ → ℕ → ℚ) (W H col row r : ℕ) : ℕ × ℕ × ℚ :=
  (peakWindow W H col row r).foldl (peakStep f) (col, row, f col row)

/-- Window listed in row-major order (rows outer, columns inner); this
follows the words of the specification ("first-encountered maximum in
row-major scan order") for comparison with the source's loop order. -/
def rowMajorWindow (W H col row r : ℕ) : List (ℕ × ℕ) :=
  (List.range' (row - r) (min (row + r) H - (row - r))).flatMap
    (fun j => (List.range' (col - r) (min (col + r) W - (col - r))).map (fun i => (i, j)))

/-- Peak search as worded by the specification: identical strict-update
fold, but scanning the window in row-major order. -/
def peak_find_rowMajor (f : ℕ → ℕ → ℚ) (W H col row r : ℕ) : ℕ × ℕ × ℚ :=
  (rowMajorWindow W H col row r).foldl (peakStep f) (col, row, f col row)

/-- Column-major (loop) order on pixel pairs: earlier column first,
within a column earlier row first. -/
def colMajorLt (p q : ℕ × ℕ) : Prop :=
  p.1 < q.1 ∨ (p.1 = q.1 ∧ p.2 < q.2)

/-! Affine resampler (affine).  The interpolation kernel is the external
interface of gwy_interpolation_*: a support size, the
has-interpolating-basis flag, the optional whole-image coefficient
pre-pass and the separable 2D evaluation on the gathered support x
support neighborhood (flattened row by row, as the coeff array of the
source). -/

/-- External interpolation-kernel interface consumed by affine. -/
structure Kernel where
  suplen : ℕ
  hasBasis : Bool
  resolve : (ℤ → ℚ) → (ℤ → ℚ)
  interp : ℚ → ℚ → (ℕ → ℚ) → ℚ

/-- Lower neighborhood offset of affine: sf = -((suplen - 1)/2). -/
def sfOf (K : Kernel) : ℤ :=
  -(((K.suplen - 1) / 2 : ℕ) : ℤ)

/-- Upper neighborhood offset of affine: st = suplen/2. -/
def stOf (K : Kernel) : ℤ :=
  ((K.suplen / 2 : ℕ) : ℤ)

/-- Boundary index rule of affine for one axis of resolution R:
k is shifted by 2*st*R, reduced with the C remainder % (2*R)
(truncated remainder, Int.tmod), and mirror-folded into [0, R) when the
wrapped value reaches R. -/
def wrapIndex (R st k : ℤ) : ℤ :=
  let t := Int.tmod (k + 2 * st * R) (2 * R)
  if R ≤ t then 2 * R - 1 - t else t

/-- Source-space x coordinate used by the pixel loop of affine for the
destination pixel (newi, newj): x = axx*newi + ayx*newj + bx, after the
pre-loop update bx += 0.5*(axx + axy - 1). -/
def affineMapX (t : Mat23 ℚ) (newi newj : ℤ) : ℚ :=
  let bx := t.m4 + 0.5 * (t.m0 + t.m1 - 1)
  t.m0 * newi + t.m2 * newj + bx

/-- Source-space y coordinate used by the pixel loop of affine:
y = axy*newi + ayy*newj + by, after the pre-loop update
by += 0.5*(ayx + ayy - 1). -/
def affineMapY (t : Mat23 ℚ) (newi newj : ℤ) : ℚ :=
  let bv := t.m5 + 0.5 * (t.m2 + t.m3 - 1)
  t.m1 * newi + t.m3 * newj + bv

/-- Neighborhood gather of affine: entry (i - sf)*suplen + (j - sf) of
the coeff array holds cdata[ii*xres + jj], where ii and jj are the
boundary-folded row and column indices.  The flat coeff array is
modelled as the function from the flat index; i and j are recovered by
division and remainder by suplen. -/
def gatherCoeff (cdata : ℤ → ℚ) (xres yres : ℤ) (K : Kernel) (oldi oldj : ℤ) : ℕ → ℚ :=
  fun idx =>
    let i : ℤ := ((idx / K.suplen : ℕ) : ℤ) + sfOf K
    let j : ℤ := ((idx % K.suplen : ℕ) : ℤ) + sfOf K
    let ii := wrapIndex yres (stOf K) (oldi + i)
    let jj := wrapIndex xres (stOf K) (oldj + j)
    cdata (ii * xres + jj)

/-- One destination sample of affine: compute the mapped source
coordinate, substitute the fill value when the domain test
(y > yres || x > xres || y < 0 || x < 0) fires, and otherwise evaluate
the kernel on the fractional offsets and gathered neighborhood
(oldi = floor(y), oldj = floor(x)). -/
def affinePixel (cdata : ℤ → ℚ) (xres yres : ℤ) (K : Kernel) (t : Mat23 ℚ)
    (fill : ℚ) (newi newj : ℤ) : ℚ :=
  let x := affineMapX t newi newj
  let y := affineMapY t newi newj
  if (yres : ℚ) < y ∨ (xres : ℚ) < x ∨ y < 0 ∨ x < 0 then fill
  else K.interp (x - ⌊x⌋) (y - ⌊y⌋) (gatherCoeff cdata xres yres K ⌊y⌋ ⌊x⌋)

/-- Full resampler: kernels without an interpolating basis first resolve
coefficients over the whole source, then every destination pixel is
produced by affinePixel. -/
def affine (src : ℤ → ℚ) (xres yres : ℤ) (K : Kernel) (t : Mat23 ℚ)
    (fill : ℚ) (newi newj : ℤ) : ℚ :=
  affinePixel (if K.hasBasis then src else K.resolve src) xres yres K t fill newi newj

/-- Concrete one-point kernel instance (support 1, interpolating basis,
evaluation reads the single gathered sample), used for concrete
evaluations of affine. -/
def K0 : Kernel :=
  ⟨1, true, id, fun _ _ c => c 0⟩

/-- Concrete 2 x 1 source grid: sample 10 at column 0, 20 at column 1. -/
def src0 : ℤ → ℚ :=
  fun k => if k = 0 then 10 else if k = 1 then 20 else 0

/-- Concrete inverse map whose corrected source coordinate at
destination pixel (0,0) is exactly (2, 0), on the far x boundary. -/
def t0 : Mat23 ℚ :=
  ⟨1, 1, 1, 1, 3/2, -1/2⟩

/-- Concrete inverse map whose corrected source coordinate at
destination pixel (0,0) is (-1, 0), outside the domain. -/
def t1 : Mat23 ℚ :=
  ⟨1, 1, 1, 1, -3/2, -1/2⟩

/-- Concrete 2 x 2 sample grid with a tied maximum of 5 at (col,row) =
(0,1) and (1,0) inside a zero background, for the peak-search
tie-break. -/
def f0 : ℕ → ℕ → ℚ :=
  fun i j => if i = 0 ∧ j = 1 then 5 else if i = 1 ∧ j = 0 then 5 else 0
/-! Helper lemmas. -/

theorem tmod_eq_emod_of_nonneg (a b : ℤ) (ha : 0 ≤ a) (hb : 0 ≤ b) :
    Int.tmod a b = a % b := by
  lift a to ℕ using ha
  lift b to ℕ using hb
  rw [show Int.tmod (a : ℤ) (b : ℤ) = ((a % b : ℕ) : ℤ) from rfl]
  exact Int.ofNat_emod a b

theorem abs_deg2rad (d : ℝ) : |deg2rad d| = |d| * Real.pi / 180 := by
  unfold deg2rad
  rw [abs_div, abs_mul, abs_of_pos Real.pi_pos]
  norm_num

theorem abs_deg2rad_le (d : ℝ) (h : |d| ≤ 30) : |deg2rad d| ≤ Real.pi / 6 := by
  rw [abs_deg2rad]
  have hπ := Real.pi_pos
  rw [div_le_div_iff₀ (by norm_num) (by norm_num)]
  nlinarith

theorem tan_pi_div_six_eq : Real.tan (Real.pi / 6) = Real.sqrt 3 / 3 := by
  have h3 : Real.sqrt 3 * Real.sqrt 3 = 3 := Real.mul_self_sqrt (by norm_num)
  have h3pos : (0 : ℝ) < Real.sqrt 3 := Real.sqrt_pos.mpr (by norm_num)
  rw [Real.tan_eq_sin_div_cos, Real.sin_pi_div_six, Real.cos_pi_div_six]
  rw [div_div_div_eq]
  rw [div_eq_div_iff (by positivity) (by norm_num)]
  nlinarith

theorem abs_tan_eq (θ : ℝ) (h : |θ| ≤ Real.pi / 6) : |Real.tan θ| = Real.tan |θ| := by
  have hπ := Real.pi_pos
  rcases le_total 0 θ with hθ | hθ
  · rw [abs_of_nonneg hθ, abs_of_nonneg]
    exact Real.tan_nonneg_of_nonneg_of_le_pi_div_two hθ
      (by rw [abs_of_nonneg hθ] at h; linarith)
  · rw [abs_of_nonpos hθ, Real.tan_neg, abs_of_nonpos]
    exact Real.tan_nonpos_of_nonpos_of_neg_pi_div_two_le hθ
      (by rw [abs_of_nonpos hθ] at h; linarith)

theorem abs_tan_mono (θ₁ θ₂ : ℝ) (h1 : |θ₁| ≤ |θ₂|) (h2 : |θ₂| ≤ Real.pi / 6) :
    |Real.tan θ₁| ≤ |Real.tan θ₂| := by
  have hπ := Real.pi_pos
  rw [abs_tan_eq θ₁ (le_trans h1 h2), abs_tan_eq θ₂ h2]
  rcases eq_or_lt_of_le h1 with h | h
  · rw [h]
  · exact le_of_lt (Real.tan_lt_tan_of_nonneg_of_lt_pi_div_two (abs_nonneg θ₁)
      (by linarith) h)

theorem abs_tan_deg_le (d : ℝ) (h : |d| ≤ 30) :
    |Real.tan (deg2rad d)| ≤ Real.sqrt 3 / 3 := by
  have hπ := Real.pi_pos
  have h6 : |Real.pi / 6| = Real.pi / 6 := abs_of_pos (by positivity)
  have hm := abs_tan_mono (deg2rad d) (Real.pi / 6)
    (by rw [h6]; exact abs_deg2rad_le d h) (le_of_eq h6)
  have he : |Real.tan (Real.pi / 6)| = Real.sqrt 3 / 3 := by
    rw [tan_pi_div_six_eq]
    exact abs_of_nonneg (by positivity)
  rw [he] at hm
  exact hm

theorem skewTrans_det_pos (X Y tx ty : ℝ) (hX : |X| ≤ 30) (hY : |Y| ≤ 30) :
    (0 : ℝ) < matrix_det (skewTrans X Y tx ty) := by
  have h3 : Real.sqrt 3 * Real.sqrt 3 = 3 := Real.mul_self_sqrt (by norm_num)
  have hx := abs_tan_deg_le X hX
  have hy := abs_tan_deg_le Y hY
  have habs : |Real.tan (deg2rad Y) * Real.tan (deg2rad X)| ≤ 1 / 3 := by
    rw [abs_mul]
    calc |Real.tan (deg2rad Y)| * |Real.tan (deg2rad X)|
        ≤ Real.sqrt 3 / 3 * (Real.sqrt 3 / 3) :=
          mul_le_mul hy hx (abs_nonneg _) (by positivity)
      _ = 1 / 3 := by rw [div_mul_div_comm, h3]; norm_num
  have := abs_le.mp habs
  unfold matrix_det skewTrans
  simp only
  nlinarith [this.1, this.2]

theorem invert_comp {α : Type} [Field α] (m : Mat23 α) (hd : matrix_det m ≠ 0)
    (x y : α) :
    mult_3matrix (invert_matrix m) (mult_3matrix m (x, y, 1)) = (x, y, 1) := by
  unfold matrix_det at hd
  unfold mult_3matrix invert_matrix matrix_det
  simp only [Prod.mk.injEq]
  refine ⟨?_, ?_, trivial⟩ <;> field_simp <;> ring

/-- C1 (amended): the forward shear matrix built by skew_process maps a
point (x, y) to (x + tan(Xskew)*y, tan(Yskew)*x + y): under the
mult_3matrix convention the x-shear is driven by the horizontal angle's
tangent applied to y (Trans[2] = tan(hAngle)), and the y-shear by the
vertical angle's tangent applied to x (Trans[1] = tan(vAngle)). -/
theorem skew_forward_map (Xskew Yskew x y : ℝ) :
    mult_3matrix (skewTrans Xskew Yskew 0 0) (x, y, 1) =
      (x + Real.tan (deg2rad Xskew) * y, Real.tan (deg2rad Yskew) * x + y, 1) := by
  unfold mult_3matrix skewTrans
  simp only [Prod.mk.injEq]
  refine ⟨by ring, by ring, trivial⟩

/-- C1 counterexample: at (Xskew, Yskew) = (45, 0) the point (0, 1) is
mapped by the source's forward shear to x-coordinate tan(45 deg) = 1,
not to 0 + tan(Yskew)*1 = tan(0 deg) = 0 as the claim predicts. -/
theorem skew_forward_map_claim_false :
    (mult_3matrix (skewTrans 45 0 0 0) (0, 1, 1)).1 ≠ 0 + Real.tan (deg2rad 0) * 1 := by
  have h45 : deg2rad 45 = Real.pi / 4 := by unfold deg2rad; ring
  have h0 : deg2rad 0 = 0 := by unfold deg2rad; ring
  unfold mult_3matrix skewTrans
  simp only [h45, h0, Real.tan_pi_div_four, Real.tan_zero]
  norm_num

/-- C3: for skew angles with |Xskew|, |Yskew| at most 30 degrees,
composing invert_matrix's output with the input matrix (linear part and
translation, via the mult_3matrix point-transform convention) is the
identity on every homogeneous point (x, y, 1). -/
theorem invert_skew_identity (X Y tx ty x y : ℝ) (hX : |X| ≤ 30) (hY : |Y| ≤ 30) :
    mult_3matrix (invert_matrix (skewTrans X Y tx ty))
      (mult_3matrix (skewTrans X Y tx ty) (x, y, 1)) = (x, y, 1) :=
  invert_comp _ (ne_of_gt (skewTrans_det_pos X Y tx ty hX hY)) x y

/-- C3 witness: the round trip at angles (0, 0), translation (3, 4) and
point (1, 2). -/
theorem invert_skew_identity_witness :
    |(0 : ℝ)| ≤ 30 ∧
      mult_3matrix (invert_matrix (skewTrans 0 0 3 4))
        (mult_3matrix (skewTrans 0 0 3 4) (1, 2, 1)) = (1, 2, 1) :=
  ⟨by norm_num, invert_skew_identity 0 0 3 4 1 2 (by norm_num) (by norm_num)⟩

theorem spanX_eq (o p c : ℝ) (ho : 0 ≤ o) (hp : 0 ≤ p) :
    max (max (max 0 o) (o + c * p)) (c * p) -
      min (min (min 0 o) (o + c * p)) (c * p) = o + |c| * p := by
  rcases le_total 0 c with hc | hc
  · have hcp : 0 ≤ c * p := mul_nonneg hc hp
    have hmax : max (max (max 0 o) (o + c * p)) (c * p) = o + c * p :=
      le_antisymm
        (max_le (max_le (max_le (by linarith) (by linarith)) le_rfl) (by linarith))
        (le_trans (le_max_right _ _) (le_max_left _ _))
    have hmin : min (min (min 0 o) (o + c * p)) (c * p) = 0 :=
      le_antisymm
        (le_trans (min_le_left _ _) (le_trans (min_le_left _ _) (min_le_left _ _)))
        (le_min (le_min (le_min le_rfl ho) (by linarith)) hcp)
    rw [hmax, hmin, abs_of_nonneg hc]
    ring
  · have hcp : c * p ≤ 0 := mul_nonpos_iff.mpr (Or.inr ⟨hc, hp⟩)
    have hmax : max (max (max 0 o) (o + c * p)) (c * p) = o :=
      le_antisymm
        (max_le (max_le (max_le ho le_rfl) (by linarith)) (by linarith))
        (le_trans (le_max_right _ _) (le_trans (le_max_left _ _) (le_max_left _ _)))
    have hmin : min (min (min 0 o) (o + c * p)) (c * p) = c * p :=
      le_antisymm (min_le_right _ _)
        (le_min (le_min (le_min hcp (by linarith)) (by linarith)) le_rfl)
    rw [hmax, hmin, abs_of_nonpos hc]
    ring

theorem spanY_eq (o p c : ℝ) (ho : 0 ≤ o) (hp : 0 ≤ p) :
    max (max (max 0 (c * o)) (c * o + p)) p -
      min (min (min 0 (c * o)) (c * o + p)) p = p + |c| * o := by
  rcases le_total 0 c with hc | hc
  · have hcp : 0 ≤ c * o := mul_nonneg hc ho
    have hmax : max (max (max 0 (c * o)) (c * o + p)) p = c * o + p :=
      le_antisymm
        (max_le (max_le (max_le (by linarith) (by linarith)) le_rfl) (by linarith))
        (le_trans (le_max_right _ _) (le_max_left _ _))
    have hmin : min (min (min 0 (c * o)) (c * o + p)) p = 0 :=
      le_antisymm
        (le_trans (min_le_left _ _) (le_trans (min_le_left _ _) (min_le_left _ _)))
        (le_min (le_min (le_min le_rfl hcp) (by linarith)) hp)
    rw [hmax, hmin, abs_of_nonneg hc]
    ring
  · have hcp : c * o ≤ 0 := mul_nonpos_iff.mpr (Or.inr ⟨hc, ho⟩)
    have hmax : max (max (max 0 (c * o)) (c * o + p)) p = p :=
      le_antisymm
        (max_le (max_le (max_le hp (by linarith)) (by linarith)) le_rfl)
        (le_max_right _ _)
    have hmin : min (min (min 0 (c * o)) (c * o + p)) p = c * o :=
      le_antisymm
        (le_trans (min_le_left _ _) (le_trans (min_le_left _ _) (min_le_right _ _)))
        (le_min (le_min (le_min hcp le_rfl) (by linarith)) (by linarith))
    rw [hmax, hmin, abs_of_nonpos hc]
    ring

theorem skewCanvas_eq (X Y ox oy : ℝ) (hx : 0 ≤ ox) (hy : 0 ≤ oy) :
    skewCanvas X Y ox oy =
      (gwyRound (ox + |Real.tan (deg2rad X)| * oy),
       gwyRound (oy + |Real.tan (deg2rad Y)| * ox)) := by
  unfold skewCanvas skewTrans mult_3matrix
  simp only [one_mul, zero_mul, mul_zero, mul_one, add_zero, zero_add]
  rw [Prod.mk.injEq]
  constructor
  · rw [spanX_eq ox oy (Real.tan (deg2rad X)) hx hy]
  · rw [spanY_eq ox oy (Real.tan (deg2rad Y)) hx hy]

/-- C6: for input resolution at least 1 x 1, the new canvas resolution
computed by skew_process (GWY_ROUND of the sheared bounding-box width
and height) is at least 1 pixel in each dimension, for every pair of
skew angles. -/
theorem skewCanvas_ge_one (X Y ox oy : ℝ) (hx : 1 ≤ ox) (hy : 1 ≤ oy) :
    1 ≤ (skewCanvas X Y ox oy).1 ∧ 1 ≤ (skewCanvas X Y ox oy).2 := by
  rw [skewCanvas_eq X Y ox oy (by linarith) (by linarith)]
  have h1 : 0 ≤ |Real.tan (deg2rad X)| * oy := by positivity
  have h2 : 0 ≤ |Real.tan (deg2rad Y)| * ox := by positivity
  constructor <;> · unfold gwyRound; rw [Int.le_floor]; push_cast; linarith

/-- C6 witness: a 1 x 1 input at zero skew yields a canvas of at least
1 x 1. -/
theorem skewCanvas_ge_one_witness :
    (1 : ℝ) ≤ 1 ∧ (1 ≤ (skewCanvas 0 0 1 1).1 ∧ 1 ≤ (skewCanvas 0 0 1 1).2) :=
  ⟨by norm_num, skewCanvas_ge_one 0 0 1 1 (by norm_num) (by norm_num)⟩

/-- C7: with both angle magnitudes within the 30-degree parameter
domain, the new x-resolution is monotonically non-decreasing in |Xskew|
with Yskew held fixed, the new y-resolution is monotonically
non-decreasing in |Yskew| with Xskew held fixed, and neither dimension
is ever smaller than under zero skew (the last part for all angles). -/
theorem skewCanvas_monotone (ox oy X₁ X₂ Y₁ Y₂ : ℝ) (hox : 0 ≤ ox) (hoy : 0 ≤ oy)
    (hX : |X₁| ≤ |X₂|) (hX30 : |X₂| ≤ 30) (hY : |Y₁| ≤ |Y₂|) (hY30 : |Y₂| ≤ 30) :
    (skewCanvas X₁ Y₁ ox oy).1 ≤ (skewCanvas X₂ Y₁ ox oy).1 ∧
    (skewCanvas X₁ Y₁ ox oy).2 ≤ (skewCanvas X₁ Y₂ ox oy).2 ∧
    (skewCanvas 0 0 ox oy).1 ≤ (skewCanvas X₁ Y₁ ox oy).1 ∧
    (skewCanvas 0 0 ox oy).2 ≤ (skewCanvas X₁ Y₁ ox oy).2 := by
  have hπ := Real.pi_pos
  have hrad : ∀ d₁ d₂ : ℝ, |d₁| ≤ |d₂| → |deg2rad d₁| ≤ |deg2rad d₂| := by
    intro d₁ d₂ h
    rw [abs_deg2rad, abs_deg2rad]
    have : |d₁| * Real.pi ≤ |d₂| * Real.pi := by nlinarith
    linarith
  have htanX : |Real.tan (deg2rad X₁)| ≤ |Real.tan (deg2rad X₂)| :=
    abs_tan_mono _ _ (hrad X₁ X₂ hX) (abs_deg2rad_le X₂ hX30)
  have htanY : |Real.tan (deg2rad Y₁)| ≤ |Real.tan (deg2rad Y₂)| :=
    abs_tan_mono _ _ (hrad Y₁ Y₂ hY) (abs_deg2rad_le Y₂ hY30)
  have h0 : deg2rad 0 = 0 := by unfold deg2rad; ring
  rw [skewCanvas_eq X₁ Y₁ ox oy hox hoy, skewCanvas_eq X₂ Y₁ ox oy hox hoy,
    skewCanvas_eq X₁ Y₂ ox oy hox hoy, skewCanvas_eq 0 0 ox oy hox hoy]
  simp only [h0, Real.tan_zero, abs_zero, zero_mul, add_zero]
  refine ⟨Int.floor_le_floor ?_, Int.floor_le_floor ?_,
    Int.floor_le_floor ?_, Int.floor_le_floor ?_⟩
  · nlinarith
  · nlinarith
  · nlinarith [abs_nonneg (Real.tan (deg2rad X₁))]
  · nlinarith [abs_nonneg (Real.tan (deg2rad Y₁))]

/-- C7 witness: the monotonicity instance at the 1 x 1 resolution with
all angles zero. -/
theorem skewCanvas_monotone_witness :
    |(0 : ℝ)| ≤ 30 ∧
      ((skewCanvas 0 0 1 1).1 ≤ (skewCanvas 0 0 1 1).1 ∧
       (skewCanvas 0 0 1 1).2 ≤ (skewCanvas 0 0 1 1).2 ∧
       (skewCanvas 0 0 1 1).1 ≤ (skewCanvas 0 0 1 1).1 ∧
       (skewCanvas 0 0 1 1).2 ≤ (skewCanvas 0 0 1 1).2) :=
  ⟨by norm_num,
   skewCanvas_monotone 1 1 0 0 0 0 (by norm_num) (by norm_num) (by norm_num)
     (by norm_num) (by norm_num) (by norm_num)⟩

/-- C8: on the perfect square lattice p1=(0,1), p2=(0,0), p3=(1,0),
p4=(1,1) the angle computation returns angle123 = 90 and
angle234 = 90 degrees. -/
theorem get_angles_square : get_angles (0, 1) (0, 0) (1, 0) (1, 1) = (90, 90) := by
  have hπ : Real.pi ≠ 0 := Real.pi_ne_zero
  unfold get_angles
  norm_num
  field_simp
  ring

theorem peakFold_val (f : ℕ → ℕ → ℚ) (L : List (ℕ × ℕ)) (b : ℕ × ℕ × ℚ)
    (hb : b.2.2 = f b.1 b.2.1) :
    (L.foldl (peakStep f) b).2.2 =
      f (L.foldl (peakStep f) b).1 (L.foldl (peakStep f) b).2.1 := by
  induction L generalizing b with
  | nil => exact hb
  | cons p L ih =>
    simp only [List.foldl_cons]
    apply ih
    unfold peakStep
    split
    · rfl
    · exact hb

theorem peakFold_le (f : ℕ → ℕ → ℚ) (L : List (ℕ × ℕ)) (b : ℕ × ℕ × ℚ) :
    b.2.2 ≤ (L.foldl (peakStep f) b).2.2 ∧
      ∀ p ∈ L, f p.1 p.2 ≤ (L.foldl (peakStep f) b).2.2 := by
  induction L generalizing b with
  | nil => exact ⟨le_rfl, by simp⟩
  | cons q L ih =>
    simp only [List.foldl_cons]
    have hstep : b.2.2 ≤ (peakStep f b q).2.2 := by
      unfold peakStep
      split
      · next h => exact le_of_lt h
      · exact le_rfl
    have hq : f q.1 q.2 ≤ (peakStep f b q).2.2 := by
      unfold peakStep
      split
      · exact le_rfl
      · next h => exact le_of_not_lt h
    refine ⟨le_trans hstep (ih (peakStep f b q)).1, ?_⟩
    intro p hp
    rcases List.mem_cons.mp hp with h1 | h1
    · rw [h1]
      exact le_trans hq (ih (peakStep f b q)).1
    · exact (ih (peakStep f b q)).2 p h1

theorem peakFold_first (f : ℕ → ℕ → ℚ) (L : List (ℕ × ℕ)) (b : ℕ × ℕ × ℚ)
    (h : L.foldl (peakStep f) b ≠ b) :
    ∃ p L₁ L₂, L = L₁ ++ p :: L₂ ∧
      L.foldl (peakStep f) b = (p.1, p.2, f p.1 p.2) ∧
      b.2.2 < f p.1 p.2 ∧
      ∀ q ∈ L₁, f q.1 q.2 < f p.1 p.2 := by
  induction L generalizing b with
  | nil => exact absurd rfl h
  | cons a L ih =>
    simp only [List.foldl_cons] at h ⊢
    by_cases hc : f a.1 a.2 > b.2.2
    · have hstep : peakStep f b a = (a.1, a.2, f a.1 a.2) := by
        unfold peakStep
        rw [if_pos hc]
      rw [hstep] at h ⊢
      by_cases h2 : L.foldl (peakStep f) (a.1, a.2, f a.1 a.2) = (a.1, a.2, f a.1 a.2)
      · exact ⟨a, [], L, rfl, h2, hc, by simp⟩
      · obtain ⟨p, L₁, L₂, hL, hres, hz, hall⟩ := ih (a.1, a.2, f a.1 a.2) h2
        refine ⟨p, a :: L₁, L₂, by simp [hL], hres, lt_trans hc hz, ?_⟩
        intro q hq
        rcases List.mem_cons.mp hq with rfl | hq
        · exact hz
        · exact hall q hq
    · have hstep : peakStep f b a = b := by
        unfold peakStep
        rw [if_neg hc]
      rw [hstep] at h ⊢
      obtain ⟨p, L₁, L₂, hL, hres, hz, hall⟩ := ih b h
      refine ⟨p, a :: L₁, L₂, by simp [hL], hres, hz, ?_⟩
      intro q hq
      rcases List.mem_cons.mp hq with rfl | hq
      · exact lt_of_le_of_lt (le_of_not_lt hc) hz
      · exact hall q hq

theorem mem_peakWindow (W H col row r i j : ℕ) :
    (i, j) ∈ peakWindow W H col row r ↔
      (col - r ≤ i ∧ i < min (col + r) W ∧ row - r ≤ j ∧ j < min (row + r) H) := by
  unfold peakWindow
  simp only [List.mem_flatMap, List.mem_map, List.mem_range', Prod.mk.injEq]
  constructor
  · rintro ⟨a, ⟨k, hk, rfl⟩, b, ⟨l, hl, rfl⟩, rfl, rfl⟩
    omega
  · rintro ⟨h1, h2, h3, h4⟩
    exact ⟨i, ⟨i - (col - r), by omega, by omega⟩, j,
      ⟨j - (row - r), by omega, by omega⟩, rfl, rfl⟩

theorem peakWindow_pairwise (W H col row r : ℕ) :
    (peakWindow W H col row r).Pairwise colMajorLt := by
  unfold peakWindow
  rw [List.pairwise_flatMap]
  constructor
  · intro a _
    apply List.Pairwise.map
    · intro x y hxy
      exact Or.inr ⟨rfl, hxy⟩
    · exact List.pairwise_lt_range' _ _
  · apply List.Pairwise.imp ?_ (List.pairwise_lt_range' _ _)
    intro a b hab x hx y hy
    simp only [List.mem_map] at hx hy
    obtain ⟨u, _, rfl⟩ := hx
    obtain ⟨v, _, rfl⟩ := hy
    exact Or.inl hab

theorem colMajorLt_mem_left (L : List (ℕ × ℕ)) (hL : L.Pairwise colMajorLt)
    (L₁ : List (ℕ × ℕ)) (p : ℕ × ℕ) (L₂ : List (ℕ × ℕ))
    (hsplit : L = L₁ ++ p :: L₂) (q : ℕ × ℕ) (hq : q ∈ L) (hlt : colMajorLt q p) :
    q ∈ L₁ := by
  subst hsplit
  rw [List.pairwise_append] at hL
  obtain ⟨h1, h2, h3⟩ := hL
  rcases List.mem_append.mp hq with hq1 | hq2
  · exact hq1
  · rcases List.mem_cons.mp hq2 with rfl | hq3
    · exact absurd hlt (by unfold colMajorLt; omega)
    · have := (List.pairwise_cons.mp h2).1 q hq3
      unfold colMajorLt at this hlt
      omega

/-- C5 (amended): peak_find returns the maximum sample value over the
clamped window together with the approximate pixel's own value, the
returned value is the sample at the returned pixel, and on ties the
first-encountered maximum wins in COLUMN-major scan order (i over
columns outer, j over rows inner), with the approximate pixel as the
initial candidate beating the whole window on equality: whenever the
result is not the initial candidate, every window pixel strictly
earlier in column-major order than the returned pixel has a strictly
smaller sample value (and the approximate pixel's value is strictly
smaller too). -/
theorem peak_find_colMajor_max (f : ℕ → ℕ → ℚ) (W H col row r : ℕ)
    (res : ℕ × ℕ × ℚ) (hres : peak_find f W H col row r = res) :
    (∀ p ∈ peakWindow W H col row r, f p.1 p.2 ≤ res.2.2) ∧
    f col row ≤ res.2.2 ∧
    res.2.2 = f res.1 res.2.1 ∧
    (res ≠ (col, row, f col row) →
      f col row < res.2.2 ∧
      ∀ q ∈ peakWindow W H col row r, colMajorLt q (res.1, res.2.1) →
        f q.1 q.2 < res.2.2) := by
  subst hres
  unfold peak_find
  have hle := peakFold_le f (peakWindow W H col row r) (col, row, f col row)
  refine ⟨hle.2, hle.1,
    peakFold_val f (peakWindow W H col row r) (col, row, f col row) rfl, ?_⟩
  intro hne
  obtain ⟨p, L₁, L₂, hL, hfold, hz, hall⟩ :=
    peakFold_first f (peakWindow W H col row r) (col, row, f col row) hne
  rw [hfold]
  refine ⟨hz, ?_⟩
  intro q hq hlt
  have hq1 : q ∈ L₁ :=
    colMajorLt_mem_left (peakWindow W H col row r)
      (peakWindow_pairwise W H col row r) L₁ p L₂ hL q hq hlt
  exact hall q hq1

/-- C5 witness: on the 2 x 2 grid f0 with approximate pixel (1, 1) and
radius 1, the result is pixel (0, 1) with value 5, it differs from the
initial candidate, and its value strictly exceeds the approximate
pixel's sample. -/
theorem peak_find_colMajor_max_witness :
    peak_find f0 2 2 1 1 1 = (0, 1, (5 : ℚ)) ∧
    f0 1 1 < ((0, 1, (5 : ℚ)) : ℕ × ℕ × ℚ).2.2 := by
  have h := peak_find_colMajor_max f0 2 2 1 1 1 (0, 1, 5) (by decide)
  exact ⟨by decide, (h.2.2.2 (by decide)).1⟩

/-- C5 counterexample: the claim's row-major tie-break predicts pixel
(1, 0) for the tied maximum of f0, but the source's loop (columns
outer) returns pixel (0, 1): the returned pixel is not the first
row-major maximum. -/
theorem peak_find_rowMajor_claim_false :
    peak_find f0 2 2 1 1 1 = (0, 1, (5 : ℚ)) ∧
    peak_find_rowMajor f0 2 2 1 1 1 = (1, 0, (5 : ℚ)) ∧
    ((0, 1) : ℕ × ℕ) ≠ ((1, 0) : ℕ × ℕ) := by
  refine ⟨by decide, by decide, by decide⟩

/-- C9: peak_find examines exactly the pixels with column in
[col - r, min (col + r) W) and row in [row - r, min (row + r) H)
(natural subtraction col - r is max(0, col - r)); the pixel at offset
exactly +r to the right, and the one at offset exactly +r below, are
never examined; and the approximate pixel's own sample always
participates as the initial candidate, so the result value is at least
f col row. -/
theorem peak_find_window_exact (f : ℕ → ℕ → ℚ) (W H col row r i j : ℕ) :
    ((i, j) ∈ peakWindow W H col row r ↔
      (col - r ≤ i ∧ i < min (col + r) W ∧ row - r ≤ j ∧ j < min (row + r) H)) ∧
    (col + r, j) ∉ peakWindow W H col row r ∧
    (i, row + r) ∉ peakWindow W H col row r ∧
    f col row ≤ (peak_find f W H col row r).2.2 := by
  refine ⟨mem_peakWindow W H col row r i j, ?_, ?_,
    (peakFold_le f (peakWindow W H col row r) (col, row, f col row)).1⟩
  · rw [mem_peakWindow]
    omega
  · rw [mem_peakWindow]
    omega

/-- C9 witness: the window characterisation evaluated on the concrete
2 x 2 grid f0 at approximate pixel (1, 1), radius 1, test pixel (0, 0). -/
theorem peak_find_window_exact_witness :
    (((0, 0) : ℕ × ℕ) ∈ peakWindow 2 2 1 1 1 ↔
      (1 - 1 ≤ 0 ∧ 0 < min (1 + 1) 2 ∧ 1 - 1 ≤ 0 ∧ 0 < min (1 + 1) 2)) ∧
    ((1 + 1, 0) : ℕ × ℕ) ∉ peakWindow 2 2 1 1 1 ∧
    ((0, 1 + 1) : ℕ × ℕ) ∉ peakWindow 2 2 1 1 1 ∧
    f0 1 1 ≤ (peak_find f0 2 2 1 1 1).2.2 :=
  peak_find_window_exact f0 2 2 1 1 1 0 0

/-- C2 (amended): writing the inverse map as x' = a*x + c*y + tx and
y' = b*x + d*y + ty with (a, b, c, d) = (m0, m1, m2, m3), the
half-pixel correction the source adds to the translation before the
pixel loop is +0.5*(a + b - 1) on tx and +0.5*(c + d - 1) on ty: the
corrected source coordinates of destination pixel (i, j) are
a*i + c*j + tx + 0.5*(a + b - 1) and b*i + d*j + ty + 0.5*(c + d - 1). -/
theorem affine_center_correction (t : Mat23 ℚ) (i j : ℤ) :
    affineMapX t i j = t.m0 * i + t.m2 * j + t.m4 + 0.5 * (t.m0 + t.m1 - 1) ∧
    affineMapY t i j = t.m1 * i + t.m3 * j + t.m5 + 0.5 * (t.m2 + t.m3 - 1) := by
  unfold affineMapX affineMapY
  constructor <;> ring

/-- C2 counterexample: for the inverse map (a,b,c,d,tx,ty) =
(1,2,3,4,5,6) at destination pixel (0,0) the source x coordinate is
tx + 0.5*(a + b - 1) = 6, not tx + 0.5*(a + c - 1) = 6.5 as the claim
predicts. -/
theorem affine_center_correction_claim_false :
    affineMapX ⟨1, 2, 3, 4, 5, 6⟩ 0 0 ≠
      (1 : ℚ) * 0 + 3 * 0 + 5 + 0.5 * (1 + 3 - 1) := by
  unfold affineMapX
  norm_num

/-- C4 (amended): a destination pixel is set to the fill value exactly
when its corrected source coordinate leaves the CLOSED box
[0, xres] x [0, yres]; a coordinate on the far boundary (x = xres or
y = yres) is NOT filled but interpolated through the periodic-mirror
gather, and inside the closed box the written sample is the kernel's
interpolation of the gathered neighborhood. -/
theorem affine_fill_policy (src : ℤ → ℚ) (xres yres : ℤ) (K : Kernel)
    (t : Mat23 ℚ) (fill : ℚ) (newi newj : ℤ) :
    (((xres : ℚ) < affineMapX t newi newj ∨ affineMapX t newi newj < 0 ∨
        (yres : ℚ) < affineMapY t newi newj ∨ affineMapY t newi newj < 0) →
      affine src xres yres K t fill newi newj = fill) ∧
    ((0 ≤ affineMapX t newi newj ∧ affineMapX t newi newj ≤ (xres : ℚ) ∧
        0 ≤ affineMapY t newi newj ∧ affineMapY t newi newj ≤ (yres : ℚ)) →
      affine src xres yres K t fill newi newj =
        K.interp (affineMapX t newi newj - ⌊affineMapX t newi newj⌋)
          (affineMapY t newi newj - ⌊affineMapY t newi newj⌋)
          (gatherCoeff (if K.hasBasis then src else K.resolve src) xres yres K
            ⌊affineMapY t newi newj⌋ ⌊affineMapX t newi newj⌋)) := by
  unfold affine affinePixel
  constructor
  · intro h
    rw [if_pos (by tauto)]
  · intro h
    rw [if_neg ?_]
    simp only [not_or, not_lt]
    exact ⟨h.2.2.2, h.2.1, h.2.2.1, h.1⟩

/-- C4 witness: the inverse map t1 sends destination pixel (0,0) to
source coordinate (-1, 0), left of the domain, and the one-point-kernel
resample indeed writes the fill value 99. -/
theorem affine_fill_policy_witness :
    (affineMapX t1 0 0 < 0) ∧ affine src0 2 1 K0 t1 99 0 0 = 99 := by
  have hX : affineMapX t1 0 0 < 0 := by norm_num [affineMapX, t1]
  exact ⟨hX, (affine_fill_policy src0 2 1 K0 t1 99 0 0).1 (Or.inr (Or.inl hX))⟩

/-- C4 counterexample: the inverse map t0 sends destination pixel (0,0)
to source coordinate (2, 0), which lies outside the claim's half-open
domain [0, 2) x [0, 1); the claim demands the fill value 99 there, but
the source interpolates through the boundary fold and writes sample 20. -/
theorem affine_fill_claim_false :
    affineMapX t0 0 0 = 2 ∧ affineMapY t0 0 0 = 0 ∧ ¬ ((2 : ℚ) < 2) ∧
    affine src0 2 1 K0 t0 99 0 0 = 20 ∧ (20 : ℚ) ≠ 99 := by
  have hX : affineMapX t0 0 0 = 2 := by norm_num [affineMapX, t0]
  have hY : affineMapY t0 0 0 = 0 := by norm_num [affineMapY, t0]
  refine ⟨hX, hY, by norm_num, ?_, by norm_num⟩
  have h2 := (affine_fill_policy src0 2 1 K0 t0 99 0 0).2
    ⟨by rw [hX]; norm_num, by rw [hX]; norm_num, by rw [hY], by rw [hY]; norm_num⟩
  rw [h2, hX, hY]
  norm_num
  decide

theorem wrapIndex_bounds (K : Kernel) (R base off : ℤ) (hK : 1 ≤ K.suplen)
    (hR : 1 ≤ R) (hb0 : 0 ≤ base) (hbR : base ≤ R)
    (h1 : sfOf K ≤ off) (h2 : off ≤ stOf K) :
    0 ≤ wrapIndex R (stOf K) (base + off) ∧ wrapIndex R (stOf K) (base + off) < R := by
  have hst : 0 ≤ stOf K := Int.ofNat_nonneg _
  have hsf : -stOf K ≤ sfOf K := by
    unfold sfOf stOf
    omega
  have hmul : 2 * stOf K ≤ 2 * stOf K * R := by nlinarith
  have hnn : 0 ≤ base + off + 2 * stOf K * R := by linarith
  simp only [wrapIndex]
  rw [tmod_eq_emod_of_nonneg _ _ hnn (by linarith)]
  have ht0 : 0 ≤ (base + off + 2 * stOf K * R) % (2 * R) :=
    Int.emod_nonneg _ (by omega)
  have ht1 : (base + off + 2 * stOf K * R) % (2 * R) < 2 * R :=
    Int.emod_lt_of_pos _ (by omega)
  split
  · omega
  · omega

/-- C10: for source resolutions at least 1 and any neighborhood offset
between sf = -((suplen-1)/2) and st = suplen/2 gathered for an
in-domain coordinate (x, y) in [0, xres] x [0, yres], the wrapped and
mirror-folded row and column indices lie in [0, yres) and [0, xres)
respectively, and the flat read index ii*xres + jj lies within
[0, xres*yres): every read of the source/coefficient grid during
interpolation is in bounds. -/
theorem affine_gather_in_bounds (K : Kernel) (xres yres : ℤ) (x y : ℚ)
    (i j : ℤ) (hK : 1 ≤ K.suplen) (hxres : 1 ≤ xres) (hyres : 1 ≤ yres)
    (hx0 : 0 ≤ x) (hxW : x ≤ (xres : ℚ)) (hy0 : 0 ≤ y) (hyH : y ≤ (yres : ℚ))
    (hi1 : sfOf K ≤ i) (hi2 : i ≤ stOf K) (hj1 : sfOf K ≤ j) (hj2 : j ≤ stOf K) :
    (0 ≤ wrapIndex xres (stOf K) (⌊x⌋ + j) ∧ wrapIndex xres (stOf K) (⌊x⌋ + j) < xres) ∧
    (0 ≤ wrapIndex yres (stOf K) (⌊y⌋ + i) ∧ wrapIndex yres (stOf K) (⌊y⌋ + i) < yres) ∧
    (0 ≤ wrapIndex yres (stOf K) (⌊y⌋ + i) * xres + wrapIndex xres (stOf K) (⌊x⌋ + j) ∧
      wrapIndex yres (stOf K) (⌊y⌋ + i) * xres + wrapIndex xres (stOf K) (⌊x⌋ + j) <
        xres * yres) := by
  have hfx0 : 0 ≤ ⌊x⌋ := Int.floor_nonneg.mpr hx0
  have hfxW : ⌊x⌋ ≤ xres := by
    have := Int.floor_le_floor hxW
    rwa [Int.floor_intCast] at this
  have hfy0 : 0 ≤ ⌊y⌋ := Int.floor_nonneg.mpr hy0
  have hfyH : ⌊y⌋ ≤ yres := by
    have := Int.floor_le_floor hyH
    rwa [Int.floor_intCast] at this
  have hjb := wrapIndex_bounds K xres ⌊x⌋ j hK hxres hfx0 hfxW hj1 hj2
  have hib := wrapIndex_bounds K yres ⌊y⌋ i hK hyres hfy0 hfyH hi1 hi2
  refine ⟨hjb, hib, ?_, ?_⟩
  · nlinarith [hjb.1, hib.1]
  · nlinarith [hjb.2, hib.2, hjb.1, hib.1]

/-- C10 witness: the one-point kernel on a 2 x 1 source at in-domain
coordinate (1/2, 1/2) with offsets (0, 0). -/
theorem affine_gather_in_bounds_witness :
    (0 ≤ wrapIndex 2 (stOf K0) (⌊(1/2 : ℚ)⌋ + 0) ∧
      wrapIndex 2 (stOf K0) (⌊(1/2 : ℚ)⌋ + 0) < 2) ∧
    (0 ≤ wrapIndex 1 (stOf K0) (⌊(1/2 : ℚ)⌋ + 0) ∧
      wrapIndex 1 (stOf K0) (⌊(1/2 : ℚ)⌋ + 0) < 1) ∧
    (0 ≤ wrapIndex 1 (stOf K0) (⌊(1/2 : ℚ)⌋ + 0) * 2 + wrapIndex 2 (stOf K0) (⌊(1/2 : ℚ)⌋ + 0) ∧
      wrapIndex 1 (stOf K0) (⌊(1/2 : ℚ)⌋ + 0) * 2 + wrapIndex 2 (stOf K0) (⌊(1/2 : ℚ)⌋ + 0) <
        2 * 1) :=
  affine_gather_in_bounds K0 2 1 (1/2) (1/2) 0 0 (by norm_num [K0]) (by norm_num)
    (by norm_num) (by norm_num) (by norm_num) (by norm_num) (by norm_num)
    (by norm_num [sfOf, K0]) (by norm_num [stOf, K0]) (by norm_num [sfOf, K0])
    (by norm_num [stOf, K0])
